import Mathlib

/-!
Verification development for the edb-debugger HeapAnalyzer plugin
(`src/plugins/HeapAnalyzer/DialogHeap.cpp`).

The embedding models the heap chunk walk (`DialogHeap::collect_blocks`),
content classification, pointer detection (`DialogHeap::detect_pointers`,
`DialogHeap::process_potential_pointer`), the heap-start heuristic
(`DialogHeap::find_heap_start_heuristic`, `DialogHeap::do_find`) and the
graph construction of `DialogHeap::on_btnGraph_clicked`.

Machine integers are modelled as `Nat` with explicit reduction `% 2^W`
where the C++ code relies on fixed-width wraparound; `W` is the address
width in bits (32 or 64).  Fallible memory reads are modelled as
`Nat → Option _`; a failed `read_bytes` call leaves the destination
buffer unchanged, exactly as in C++, so the walk state carries the
buffer contents explicitly.
-/

namespace HeapAnalyzer

/-- `#define PREV_INUSE 0x1` -/
def PREV_INUSE : Nat := 0x1

/-- `#define IS_MMAPPED 0x2` -/
def IS_MMAPPED : Nat := 0x2

/-- `#define NON_MAIN_ARENA 0x4` -/
def NON_MAIN_ARENA : Nat := 0x4

/-- `#define SIZE_BITS (PREV_INUSE|IS_MMAPPED|NON_MAIN_ARENA)` -/
def SIZE_BITS : Nat := PREV_INUSE ||| IS_MMAPPED ||| NON_MAIN_ARENA

/-- The two header words of `struct malloc_chunk` that the walk decodes
(`prev_size`, `size`); the `fd`/`bk` link fields are never read by the
analyzed code, so they are omitted from the model. -/
structure MallocChunk where
  prev_size : Nat
  size : Nat
deriving DecidableEq

/-- `ulong chunk_size() const { return size & ~(SIZE_BITS); }` —
on a `W`-bit target this clears the three low flag bits of the `W`-bit
value `size`, i.e. rounds `size mod 2^W` down to a multiple of
`SIZE_BITS + 1 = 8` (written with `/`,`*` rather than `Nat.land` so that
the definition reduces well; the two forms agree on every input). -/
def chunk_size (W : Nat) (c : MallocChunk) : Nat :=
  c.size % 2 ^ W / 8 * 8

/-- `bool prev_inuse() const { return size & PREV_INUSE; }` —
`PREV_INUSE = 0x1` is the lowest bit, so this is the parity of `size`. -/
def prev_inuse (c : MallocChunk) : Bool :=
  c.size % 2 != 0

/-- `#define next_chunk(p, c) ((p) + ((c).chunk_size()))` with `W`-bit
address wraparound. -/
def next_chunk (W : Nat) (p : Nat) (c : MallocChunk) : Nat :=
  (p + chunk_size W c) % 2 ^ W

/-- `edb::address_t block_start(edb::address_t pointer)`:
`pointer + sizeof(struct malloc_chunk *) * 2` (pointer size is `W/8`). -/
def block_start (W : Nat) (pointer : Nat) : Nat :=
  (pointer + (W / 8) * 2) % 2 ^ W

/-- `W`-bit unsigned subtraction `a - b` (two's-complement wraparound). -/
def addr_sub (W : Nat) (a b : Nat) : Nat :=
  (a + (2 ^ W - b % 2 ^ W)) % 2 ^ W

/-- One scan result row (`Result`, declared in the plugin's header and used
field-by-field in `DialogHeap.cpp`): address of the chunk (`block`), the
recorded size, the state string (`"Top"`, `"Busy"`, `"Free"`), the display
text `data`, and the recorded outgoing edges `points_to`.  The three- and
four-argument constructors of the C++ type leave `data`/`points_to` empty. -/
structure Result where
  block : Nat
  size : Nat
  type : String
  data : String
  points_to : List Nat
deriving DecidableEq

/-- External collaborators used by the walk: the process memory (header
reads), the string decoders `edb::v1::get_ascii_string_at_address` /
`get_utf16_string_at_address`, and the 16-byte payload read used for the
magic-signature checks.  `bytes16 a` is the contents of the 16-byte stack
buffer after the read attempt at `a` (the code ignores the read's return
value, so on failure the buffer simply holds arbitrary bytes). -/
structure WalkEnv where
  mem : Nat → Option MallocChunk
  ascii : Nat → Nat → Nat → Option String
  utf16 : Nat → Nat → Nat → Option String
  bytes16 : Nat → List Nat

/-- The content-classification block of `DialogHeap::collect_blocks`
(lines 308-346): ASCII string first, then UTF-16, then the magic byte
signatures in source order (PNG, XPM, BZip, compress, GZip); otherwise
the display text stays empty. -/
def classify (W : Nat) (env : WalkEnv) (min_string_length addr chunkSize : Nat) :
    String :=
  let bs := block_start W addr
  match env.ascii bs min_string_length chunkSize with
  | some asciiData => "ASCII \"" ++ asciiData ++ "\""
  | none =>
    match env.utf16 bs min_string_length chunkSize with
    | some utf16Data => "UTF-16 \"" ++ utf16Data ++ "\""
    | none =>
      let bytes := env.bytes16 bs
      if bytes.take 4 = [0x89, 0x50, 0x4e, 0x47] then "PNG IMAGE"
      else if bytes.take 9 = [0x2f, 0x2a, 0x20, 0x58, 0x50, 0x4d, 0x20, 0x2a, 0x2f] then "XPM IMAGE"
      else if bytes.take 2 = [0x42, 0x5a] then "BZIP FILE"
      else if bytes.take 2 = [0x1f, 0x9d] then "COMPRESS FILE"
      else if bytes.take 2 = [0x1f, 0x8b] then "GZIP FILE"
      else ""

/-- One iteration of the `while` loop of `DialogHeap::collect_blocks`
after the current header has been decoded into `currentChunk`:
either the loop ends (`Sum.inl` carries the final result list) or it
continues (`Sum.inr` carries the next address, the new contents of the
`nextChunk` buffer, and the extended result list).  Mirrors lines
277-365 of the source. -/
def walk_step (W : Nat) (env : WalkEnv)
    (min_string_length start_address end_address cur : Nat)
    (currentChunk nextBuf : MallocChunk) (acc : List Result) :
    Sum (List Result) (Nat × MallocChunk × List Result) :=
  let nxt := next_chunk W cur currentChunk
  if nxt = end_address then
    -- is this the last chunk (if so, it's the 'top')
    let acc' := acc ++ [⟨cur, chunk_size W currentChunk, "Top", "", []⟩]
    if cur = nxt then Sum.inl acc' else Sum.inr (nxt, nextBuf, acc')
  else if nxt > end_address ∨ nxt < start_address then
    -- make sure we aren't following a broken heap...
    Sum.inl acc
  else
    -- read in the next chunk (a failed read leaves the buffer as-is)
    let nextChunk := (env.mem nxt).getD nextBuf
    let acc' := acc ++
      [⟨cur, chunk_size W currentChunk + 4,
        if prev_inuse nextChunk then "Busy" else "Free",
        classify W env min_string_length cur (chunk_size W currentChunk), []⟩]
    -- avoid self referencing blocks
    if cur = nxt then Sum.inl acc' else Sum.inr (nxt, nextChunk, acc')

/-- The walk loop of `DialogHeap::collect_blocks` (lines 277-365), with
explicit fuel because the source loop does not terminate on all inputs;
`none` means the fuel ran out.  `cb`/`nb` are the contents of the
`currentChunk`/`nextChunk` stack buffers (the source declares them
outside the loop and ignores `read_bytes` failures, so a failed header
read decodes the stale buffer). -/
def collect_blocks_loop (W : Nat) (env : WalkEnv)
    (min_string_length start_address end_address : Nat) :
    Nat → Nat → MallocChunk → MallocChunk → List Result → Option (List Result)
  | 0, _, _, _, _ => none
  | fuel + 1, cur, cb, nb, acc =>
    if cur = end_address then some acc
    else
      -- read in the current chunk.. (`(env.mem cur).getD cb` is the buffer
      -- contents after the read attempt: a failed read leaves `cb`)
      match walk_step W env min_string_length start_address end_address cur
          ((env.mem cur).getD cb) nb acc with
      | Sum.inl res => some res
      | Sum.inr (nxt, nb', acc') =>
        collect_blocks_loop W env min_string_length start_address end_address
          fuel nxt ((env.mem cur).getD cb) nb' acc'

/-- Modelled from the spec: the walk described in sections 4.2 and 7 of
the specification, which — unlike the source — stops immediately when a
header read (of the current or the next chunk) fails, retaining the
chunks collected so far as a partial result.  Used only to compare the
spec's claimed error handling against the source's actual behaviour. -/
def collect_blocks_spec_loop (W : Nat) (env : WalkEnv)
    (min_string_length start_address end_address : Nat) :
    Nat → Nat → List Result → Option (List Result)
  | 0, _, _ => none
  | fuel + 1, cur, acc =>
    if cur = end_address then some acc
    else
      match env.mem cur with
      | none => some acc
      | some currentChunk =>
        let nxt := next_chunk W cur currentChunk
        if nxt = end_address then
          some (acc ++ [⟨cur, chunk_size W currentChunk, "Top", "", []⟩])
        else if nxt > end_address ∨ nxt < start_address then
          some acc
        else
          match env.mem nxt with
          | none => some acc
          | some nextChunk =>
            let acc' := acc ++
              [⟨cur, chunk_size W currentChunk + 4,
                if prev_inuse nextChunk then "Busy" else "Free",
                classify W env min_string_length cur (chunk_size W currentChunk), []⟩]
            if cur = nxt then some acc'
            else collect_blocks_spec_loop W env min_string_length start_address
              end_address fuel nxt acc'

/-! ## Pointer detection (`DialogHeap::detect_pointers`,
`DialogHeap::process_potential_pointer`) -/

/-- External collaborators of the pointer-detection pass: the
pointer-sized word read (`process->read_bytes(block_ptr, &pointer, ...)`,
whose return value this code *does* check) and
`edb::v1::format_pointer`. -/
structure DetectEnv where
  readWord : Nat → Option Nat
  fmt : Nat → String

/-- The annotation `QString("dword ptr [%1] |")` / `qword ...` appended
for a matched payload word (`it.key()` is the matched pointer value). -/
def edge_text (W : Nat) (fmt : Nat → String) (key : Nat) : String :=
  (if W = 32 then "dword ptr [" else "qword ptr [") ++ fmt key ++ "] |"

/-- `result.data.truncate(result.data.size() - 2)`: QString::truncate
drops everything from the given position on, and a negative position
clears the string. -/
def qtruncate (data : String) : String :=
  data.take (data.length - 2)

/-- The payload-word address sequence of the loops
`while(block_ptr < block_end) { ...; block_ptr += sizeof(edb::address_t) }`
starting at `ptr` (fuelled because the increment wraps at `2^W`). -/
def payload_addrs_go (W : Nat) : Nat → Nat → Nat → List Nat
  | 0, _, _ => []
  | fuel + 1, ptr, endp =>
    if ptr < endp then ptr :: payload_addrs_go W fuel ((ptr + W / 8) % 2 ^ W) endp
    else []

/-- The payload-word addresses of one result row: from
`block_start(result)` up to `block_start(result) + result.size`. -/
def payload_addrs (W fuel : Nat) (result : Result) : List Nat :=
  payload_addrs_go W fuel (block_start W result.block)
    ((block_start W result.block + result.size) % 2 ^ W)

/-- One `targets.insert(block_ptr, result.block)` loop of
`DialogHeap::detect_pointers` (lines 235-242): every payload-word
address of `result` is mapped to `result.block`, overwriting earlier
entries (QHash::insert semantics). -/
def insert_targets (W fuel : Nat) (targets : Nat → Option Nat)
    (result : Result) : Nat → Option Nat :=
  fun a => if a ∈ payload_addrs W fuel result then some result.block else targets a

/-- The complete `targets` index built by `DialogHeap::detect_pointers`
before the per-chunk scans run. -/
def build_targets (W fuel : Nat) (results : List Result) : Nat → Option Nat :=
  results.foldl (insert_targets W fuel) (fun _ => none)

/-- The scan loop of `DialogHeap::process_potential_pointer`
(lines 200-215): walk the payload at pointer-size stride; for every word
that reads successfully and is a key of `targets`, append the annotation
and record the edge `it.value()` (the owning chunk's `block`). -/
def payload_scan (W : Nat) (env : DetectEnv) (targets : Nat → Option Nat) :
    Nat → Nat → Nat → String × List Nat → String × List Nat
  | 0, _, _, st => st
  | fuel + 1, ptr, endp, st =>
    if ptr < endp then
      let st' :=
        match env.readWord ptr with
        | some pointer =>
          match targets pointer with
          | some tgt => (st.1 ++ edge_text W env.fmt pointer, st.2 ++ [tgt])
          | none => st
        | none => st
      payload_scan W env targets fuel ((ptr + W / 8) % 2 ^ W) endp st'
    else st

/-- `DialogHeap::process_potential_pointer` (lines 192-220): only a
result whose `data` is still empty is scanned; a tagged result is
returned untouched. -/
def process_potential_pointer (W fuel : Nat) (env : DetectEnv)
    (targets : Nat → Option Nat) (result : Result) : Result :=
  if result.data = "" then
    let block_ptr := block_start W result.block
    let block_end := (block_ptr + result.size) % 2 ^ W
    let st := payload_scan W env targets fuel block_ptr block_end
      (result.data, result.points_to)
    { result with data := qtruncate st.1, points_to := st.2 }
  else result

/-- `DialogHeap::detect_pointers` (lines 226-256): build the targets
index from all results, then map `process_potential_pointer` over the
result rows. -/
def detect_pointers (W fuel : Nat) (env : DetectEnv) (results : List Result) :
    List Result :=
  let targets := build_targets W fuel results
  results.map (process_potential_pointer W fuel env targets)

/-! ## Heap-start heuristic (`DialogHeap::find_heap_start_heuristic`,
`DialogHeap::do_find`) -/

/-- External collaborators of the bounds search: the pointer-sized word
read and `edb::v1::debugger_core->page_size()`. -/
structure FindEnv where
  readWord : Nat → Option Nat
  page_size : Nat

/-- `DialogHeap::find_heap_start_heuristic` (lines 382-403).
`junk` is the value of the uninitialized local `test_addr` when the
probe read fails (the return value of `read_bytes` is ignored).
On x86-64 the probe offset is `4 * sizeof(edb::address_t)` = 32; on the
32-bit build it is `3 * sizeof(edb::address_t) + sizeof(unsigned int)`
= 16 — numerically `4 * (W/8)` in both cases. -/
def find_heap_start_heuristic (W : Nat) (env : FindEnv)
    (junk end_address offset : Nat) : Nat :=
  let start_address := addr_sub W end_address offset
  let heap_symbol := addr_sub W start_address (4 * (W / 8))
  let test_addr := (env.readWord heap_symbol).getD junk
  if test_addr ≠ env.page_size then 0
  else start_address

/-- The fallback offset scan of `DialogHeap::do_find` (lines 436-441):
`for(offset = 0; offset != 0x1000; offset += sizeof(edb::address_t))`,
keeping the first nonzero heuristic result; if no offset is accepted the
loop leaves `start_address = 0`. -/
def do_find_scan (W : Nat) (env : FindEnv) (junk end_address : Nat) : Nat :=
  let offsets := (List.range (0x1000 / (W / 8))).map (fun i => i * (W / 8))
  match offsets.find? (fun o => find_heap_start_heuristic W env junk end_address o != 0) with
  | some o => find_heap_start_heuristic W env junk end_address o
  | none => 0

/-! ## Graph construction (`DialogHeap::on_btnGraph_clicked`) -/

/-- `result_map.insert(result.block, &result)`: QHash::insert replaces
the value stored under an existing key, otherwise adds the key. -/
def map_insert (m : List (Nat × Result)) (result : Result) : List (Nat × Result) :=
  if m.any (fun p => p.1 == result.block) then
    m.map (fun p => if p.1 == result.block then (result.block, result) else p)
  else m ++ [(result.block, result)]

/-- Lookup in the modelled QHash. -/
def map_lookup (m : List (Nat × Result)) (k : Nat) : Option Result :=
  (m.find? (fun p => p.1 == k)).map (fun p => p.2)

/-- The `result_map` index built at lines 524-526. -/
def build_result_map (results : List Result) : List (Nat × Result) :=
  results.foldl map_insert []

/-- `nodes.insert(result->block, n)`: QMap keyed by address, so a block
is recorded once. -/
def node_insert (nodes : List Nat) (b : Nat) : List Nat :=
  if b ∈ nodes then nodes else nodes ++ [b]

/-- Processing one `points_to` entry of the popped result (lines
552-558): resolve it in `result_map`; if the resolved result has not
been seen, push it and mark it seen.  Membership in `seen_results` is
modelled by block address (the source compares `Result*` pointers; in
any walk output the block addresses are distinct).  A `points_to` value
missing from `result_map` makes the source dereference a
default-constructed null entry — undefined behaviour — so the model
simply skips it; the graph theorems assume every pointer resolves,
which `detect_pointers` guarantees. -/
def dfs_push (rmap : List (Nat × Result)) (p : List Result × List Nat)
    (pointer : Nat) : List Result × List Nat :=
  match map_lookup rmap pointer with
  | some next_result =>
    if next_result.block ∈ p.2 then p
    else (next_result :: p.1, p.2 ++ [next_result.block])
  | none => p

/-- The depth-first traversal of `on_btnGraph_clicked` (lines 539-559):
pop a result, record its node, and push every unseen `points_to`
target.  `none` means the fuel ran out. -/
def graph_dfs (rmap : List (Nat × Result)) :
    Nat → List Result → List Nat → List Nat → Option (List Nat)
  | 0, _, _, _ => none
  | fuel + 1, stack, seen, nodes =>
    match stack with
    | [] => some nodes
    | result :: rest =>
      let nodes' := node_insert nodes result.block
      let st := result.points_to.foldl (dfs_push rmap) (rest, seen)
      graph_dfs rmap fuel st.1 st.2 nodes'

/-- The edge pass of lines 568-575: for every entry of `result_map`
whose block was visited, emit one edge per `points_to` entry. -/
def graph_edges : List (Nat × Result) → List Nat → List (Nat × Nat)
  | [], _ => []
  | p :: rest, nodes =>
    (if p.1 ∈ nodes then p.2.points_to.map (fun q => (p.1, q)) else []) ++
      graph_edges rest nodes

/-- Outcome of one graph request: either a rendered node/edge set, or
the `nodes.size() > 3000` early return (no graph is produced). -/
inductive GraphResult where
  | graph (nodes : List Nat) (edges : List (Nat × Nat)) : GraphResult
  | tooLarge : GraphResult
deriving DecidableEq

/-- `DialogHeap::on_btnGraph_clicked` (lines 509-587) for a given seed
selection: run the DFS from the seeds, refuse if more than 3000 nodes
were visited, otherwise return the visited nodes with the edges between
visited entries of `result_map`. -/
def build_graph (fuel : Nat) (results seeds : List Result) : Option GraphResult :=
  let rmap := build_result_map results
  match graph_dfs rmap fuel seeds.reverse (seeds.map (fun r => r.block)) [] with
  | none => none
  | some nodes =>
    if nodes.length > 3000 then some GraphResult.tooLarge
    else some (GraphResult.graph nodes (graph_edges rmap nodes))

/-- Reachability from the seed set along recorded `points_to` edges. -/
inductive Reach (results : List Result) (seeds : List Nat) : Nat → Prop where
  | seed : ∀ a, a ∈ seeds → Reach results seeds a
  | step : ∀ a b r, Reach results seeds a → r ∈ results → r.block = a →
      b ∈ r.points_to → Reach results seeds b

/-! ## Concrete instances used by counterexamples and witnesses -/

/-- A memory whose only readable header sits at `0x1000`
(size field `0x10`): the header read at `0x1010` fails. -/
def env_fail : WalkEnv :=
  ⟨fun a => if a = 0x1000 then some ⟨0, 0x10⟩ else none,
   fun _ _ _ => none, fun _ _ _ => none, fun _ => List.replicate 16 0⟩

/-- A corrupted 64-bit heap whose chunk at `8` has size field
`2^64 - 8`, so the next-chunk computation wraps back to `0`. -/
def env_cycle : WalkEnv :=
  ⟨fun a => if a = 0 then some ⟨0, 8⟩
    else if a = 8 then some ⟨0, 18446744073709551608⟩ else none,
   fun _ _ _ => none, fun _ _ _ => none, fun _ => List.replicate 16 0⟩

/-- A heap whose chunk at `0x1000` has size field `1`: chunk size 0, so
the chunk is self-referencing (`next == current`). -/
def env_selfref : WalkEnv :=
  ⟨fun a => if a = 0x1000 then some ⟨0, 1⟩ else none,
   fun _ _ _ => none, fun _ _ _ => none, fun _ => List.replicate 16 0⟩

/-- A well-formed two-chunk heap on `[0x1000, 0x1020)`: both headers
have size field `0x11` (chunk size `0x10`, PREV_INUSE set). -/
def env_two : WalkEnv :=
  ⟨fun a => if a = 0x1000 then some ⟨0, 0x11⟩
    else if a = 0x1010 then some ⟨0, 0x11⟩ else none,
   fun _ _ _ => none, fun _ _ _ => none, fun _ => List.replicate 16 0⟩

/-- Soundness contract of one emitted result row: whenever the header at
`r.block` is readable, the row's recorded state and size are the ones the
walk derives from that header — `Top` with raw `chunk_size` when the
next-chunk address is the end of the heap, otherwise `Busy`/`Free`
(decided by the following header's PREV_INUSE bit whenever that header is
readable) with `chunk_size + sizeof(unsigned int)`. -/
def ChunkOK (W : Nat) (env : WalkEnv) (end_address : Nat) (r : Result) : Prop :=
  ∀ c, env.mem r.block = some c →
    (next_chunk W r.block c = end_address →
      r.type = "Top" ∧ r.size = chunk_size W c) ∧
    (next_chunk W r.block c ≠ end_address →
      (r.type = "Busy" ∨ r.type = "Free") ∧
      r.size = chunk_size W c + 4 ∧
      ∀ c', env.mem (next_chunk W r.block c) = some c' →
        r.type = (if prev_inuse c' then "Busy" else "Free"))

/-! ## Helper lemmas about the walk -/

theorem chunkok_top (W : Nat) (env : WalkEnv) (e cur : Nat) (cc : MallocChunk)
    (hcc : ∀ c, env.mem cur = some c → cc = c)
    (htop : next_chunk W cur cc = e) :
    ChunkOK W env e ⟨cur, chunk_size W cc, "Top", "", []⟩ := by
  intro c hmem
  have h := hcc c hmem
  subst h
  exact ⟨fun _ => ⟨rfl, rfl⟩, fun hne => absurd htop hne⟩

theorem chunkok_nontop (W : Nat) (env : WalkEnv) (e cur : Nat)
    (cc nb : MallocChunk) (d : String)
    (hcc : ∀ c, env.mem cur = some c → cc = c)
    (hne : next_chunk W cur cc ≠ e) :
    ChunkOK W env e
      ⟨cur, chunk_size W cc + 4,
        if prev_inuse ((env.mem (next_chunk W cur cc)).getD nb) then "Busy" else "Free",
        d, []⟩ := by
  intro c hmem
  have h := hcc c hmem
  subst h
  refine ⟨fun heq => absurd heq hne, fun _ => ?_⟩
  refine ⟨?_, rfl, ?_⟩
  · by_cases hp : prev_inuse ((env.mem (next_chunk W cur cc)).getD nb)
    · left; simp [hp]
    · right; simp [hp]
  · intro c' hc'
    simp only [hc', Option.getD_some]

/-- Every outcome of `walk_step` extends the accumulated results by at
most one row, and any added row satisfies `ChunkOK`. -/
theorem walk_step_extend (W : Nat) (env : WalkEnv) (msl s e cur : Nat)
    (cc nb : MallocChunk) (acc : List Result)
    (hcc : ∀ c, env.mem cur = some c → cc = c) :
    (∀ res, walk_step W env msl s e cur cc nb acc = Sum.inl res →
      res = acc ∨ ∃ r, ChunkOK W env e r ∧ res = acc ++ [r]) ∧
    (∀ nxt nb' acc', walk_step W env msl s e cur cc nb acc = Sum.inr (nxt, nb', acc') →
      ∃ r, ChunkOK W env e r ∧ acc' = acc ++ [r]) := by
  unfold walk_step
  by_cases htop : next_chunk W cur cc = e
  · rw [if_pos htop]
    by_cases hself : cur = next_chunk W cur cc
    · rw [if_pos hself]
      refine ⟨fun res hres => ?_, fun nxt nb' acc' hres => ?_⟩
      · injection hres with h
        exact Or.inr ⟨_, chunkok_top W env e cur cc hcc htop, h.symm⟩
      · cases hres
    · rw [if_neg hself]
      refine ⟨fun res hres => ?_, fun nxt nb' acc' hres => ?_⟩
      · cases hres
      · injection hres with h
        injection h with h1 h2
        injection h2 with h2 h3
        exact ⟨_, chunkok_top W env e cur cc hcc htop, h3.symm⟩
  · rw [if_neg htop]
    by_cases hbound : next_chunk W cur cc > e ∨ next_chunk W cur cc < s
    · rw [if_pos hbound]
      refine ⟨fun res hres => ?_, fun nxt nb' acc' hres => ?_⟩
      · injection hres with h
        exact Or.inl h.symm
      · cases hres
    · rw [if_neg hbound]
      by_cases hself : cur = next_chunk W cur cc
      · rw [if_pos hself]
        refine ⟨fun res hres => ?_, fun nxt nb' acc' hres => ?_⟩
        · injection hres with h
          exact Or.inr ⟨_, chunkok_nontop W env e cur cc nb _ hcc htop, h.symm⟩
        · cases hres
      · rw [if_neg hself]
        refine ⟨fun res hres => ?_, fun nxt nb' acc' hres => ?_⟩
        · cases hres
        · injection hres with h
          injection h with h1 h2
          injection h2 with h2 h3
          exact ⟨_, chunkok_nontop W env e cur cc nb _ hcc htop, h3.symm⟩

theorem collect_blocks_loop_sound (W : Nat) (env : WalkEnv) (msl s e : Nat) :
    ∀ fuel cur cb nb acc res,
      (∀ r ∈ acc, ChunkOK W env e r) →
      collect_blocks_loop W env msl s e fuel cur cb nb acc = some res →
      ∀ r ∈ res, ChunkOK W env e r := by
  intro fuel
  induction fuel with
  | zero =>
    intro cur cb nb acc res _ h
    simp [collect_blocks_loop] at h
  | succ n ih =>
    intro cur cb nb acc res hacc hrun
    rw [collect_blocks_loop] at hrun
    by_cases hce : cur = e
    · rw [if_pos hce] at hrun
      cases hrun
      exact hacc
    · rw [if_neg hce] at hrun
      have hcc : ∀ c, env.mem cur = some c → (env.mem cur).getD cb = c := by
        intro c h; rw [h]; rfl
      have hext := walk_step_extend W env msl s e cur ((env.mem cur).getD cb) nb acc hcc
      rcases hw : walk_step W env msl s e cur ((env.mem cur).getD cb) nb acc with
        res' | ⟨nxt, nb', acc'⟩
      · rw [hw] at hrun
        have hrun2 : some res' = some res := hrun
        injection hrun2 with h
        subst h
        rcases hext.1 res' hw with h | ⟨r, hr, h⟩
        · subst h; exact hacc
        · subst h
          intro r' hr'
          rcases List.mem_append.mp hr' with h | h
          · exact hacc r' h
          · rcases List.mem_singleton.mp h with rfl
            exact hr
      · rw [hw] at hrun
        have hrun2 : collect_blocks_loop W env msl s e n nxt ((env.mem cur).getD cb)
            nb' acc' = some res := hrun
        rcases hext.2 nxt nb' acc' hw with ⟨r, hr, h⟩
        subst h
        have hacc' : ∀ r' ∈ acc ++ [r], ChunkOK W env e r' := by
          intro r' hr'
          rcases List.mem_append.mp hr' with h | h
          · exact hacc r' h
          · rcases List.mem_singleton.mp h with rfl
            exact hr
        exact ih _ _ _ _ _ hacc' hrun2

/-- The walk only ever appends to the accumulated result list: whatever
was collected when the loop was entered is retained as a prefix of any
final result. -/
theorem collect_blocks_loop_prefix (W : Nat) (env : WalkEnv) (msl s e : Nat) :
    ∀ fuel cur cb nb acc res,
      collect_blocks_loop W env msl s e fuel cur cb nb acc = some res →
      ∃ t, res = acc ++ t := by
  intro fuel
  induction fuel with
  | zero =>
    intro cur cb nb acc res h
    simp [collect_blocks_loop] at h
  | succ n ih =>
    intro cur cb nb acc res hrun
    rw [collect_blocks_loop] at hrun
    by_cases hce : cur = e
    · rw [if_pos hce] at hrun
      cases hrun
      exact ⟨[], (List.append_nil acc).symm⟩
    · rw [if_neg hce] at hrun
      have hcc : ∀ c, env.mem cur = some c → (env.mem cur).getD cb = c := by
        intro c h; rw [h]; rfl
      have hext := walk_step_extend W env msl s e cur ((env.mem cur).getD cb) nb acc hcc
      rcases hw : walk_step W env msl s e cur ((env.mem cur).getD cb) nb acc with
        res' | ⟨nxt, nb', acc'⟩
      · rw [hw] at hrun
        have hrun2 : some res' = some res := hrun
        injection hrun2 with h
        subst h
        rcases hext.1 res' hw with h | ⟨r, _, h⟩
        · exact ⟨[], by rw [h, List.append_nil]⟩
        · exact ⟨[r], h⟩
      · rw [hw] at hrun
        have hrun2 : collect_blocks_loop W env msl s e n nxt ((env.mem cur).getD cb)
            nb' acc' = some res := hrun
        rcases hext.2 nxt nb' acc' hw with ⟨r, _, h⟩
        rcases ih _ _ _ _ _ hrun2 with ⟨t, ht⟩
        exact ⟨[r] ++ t, by rw [ht, h, List.append_assoc]⟩

/-! ## Claim C1 -/

/-- Claim C1, counterexample: on the heap `[0x1000, 0x1020)` whose only
readable header is at `0x1000`, the header read at `0x1010` fails, yet
the source walk emits two chunks — one of them the chunk at `0x1010`
itself, read after the failure — while the walk described by the spec
(stop at the first failed read) emits none.  So a failing header read
does not stop the walk and chunks are emitted after it. -/
theorem c1_counterexample :
    collect_blocks_loop 64 env_fail 0 0x1000 0x1020 10 0x1000 ⟨0, 0⟩ ⟨0, 0⟩ [] =
      some [⟨0x1000, 0x14, "Free", "", []⟩, ⟨0x1010, 0x10, "Top", "", []⟩] ∧
    collect_blocks_spec_loop 64 env_fail 0 0x1000 0x1020 10 0x1000 [] = some [] ∧
    env_fail.mem 0x1010 = none := by
  refine ⟨by decide, by decide, rfl⟩

/-- Claim C1 (amended): `collect_blocks` ignores `read_bytes` failures.
When the current-header read fails the iteration proceeds exactly as if
the read had returned the stale buffer contents `cb` — the walk does not
stop — and independently, whatever was already collected is retained as
a prefix of any final result. -/
theorem c1_read_failure_ignored (W : Nat) (env : WalkEnv)
    (msl s e fuel cur : Nat) (cb nb : MallocChunk) (acc : List Result)
    (hfail : env.mem cur = none) (hce : cur ≠ e) :
    (collect_blocks_loop W env msl s e (fuel + 1) cur cb nb acc =
      match walk_step W env msl s e cur cb nb acc with
      | Sum.inl res => some res
      | Sum.inr (nxt, nb', acc') =>
          collect_blocks_loop W env msl s e fuel nxt cb nb' acc') ∧
    (∀ res, collect_blocks_loop W env msl s e (fuel + 1) cur cb nb acc = some res →
      ∃ t, res = acc ++ t) := by
  constructor
  · rw [collect_blocks_loop, if_neg hce, hfail]
    simp only [Option.getD_none]
  · intro res h
    exact collect_blocks_loop_prefix W env msl s e (fuel + 1) cur cb nb acc res h

/-- Claim C1, witness for the amended theorem at the concrete state the
`env_fail` walk reaches after its first chunk. -/
theorem c1_witness :
    (collect_blocks_loop 64 env_fail 0 0x1000 0x1020 9 0x1010 ⟨0, 0x10⟩ ⟨0, 0⟩
        [⟨0x1000, 0x14, "Free", "", []⟩] =
      match walk_step 64 env_fail 0 0x1000 0x1020 0x1010 ⟨0, 0x10⟩ ⟨0, 0⟩
          [⟨0x1000, 0x14, "Free", "", []⟩] with
      | Sum.inl res => some res
      | Sum.inr (nxt, nb', acc') =>
          collect_blocks_loop 64 env_fail 0 0x1000 0x1020 8 nxt ⟨0, 0x10⟩ nb' acc') ∧
    (∀ res, collect_blocks_loop 64 env_fail 0 0x1000 0x1020 9 0x1010 ⟨0, 0x10⟩ ⟨0, 0⟩
        [⟨0x1000, 0x14, "Free", "", []⟩] = some res →
      ∃ t, res = [⟨0x1000, 0x14, "Free", "", []⟩] ++ t) :=
  c1_read_failure_ignored 64 env_fail 0 0x1000 0x1020 8 0x1010 ⟨0, 0x10⟩ ⟨0, 0⟩
    [⟨0x1000, 0x14, "Free", "", []⟩] (by decide) (by decide)

/-! ## Claim C3 -/

theorem env_cycle_ws0 (nb : MallocChunk) (acc : List Result) :
    walk_step 64 env_cycle 0 0 0x20 0 ⟨0, 8⟩ nb acc =
      Sum.inr (8, ⟨0, 18446744073709551608⟩, acc ++ [⟨0, 12, "Free", "", []⟩]) := by
  unfold walk_step
  rw [show next_chunk 64 0 ⟨0, 8⟩ = 8 from rfl]
  rw [if_neg (by decide : ¬(8 : Nat) = 0x20)]
  rw [if_neg (by decide : ¬((8 : Nat) > 0x20 ∨ (8 : Nat) < 0))]
  rw [show (env_cycle.mem 8).getD nb = ⟨0, 18446744073709551608⟩ from rfl]
  rw [if_neg (by decide : ¬(0 : Nat) = 8)]
  rw [show (⟨0, chunk_size 64 ⟨0, 8⟩ + 4,
      if prev_inuse ⟨0, 18446744073709551608⟩ then "Busy" else "Free",
      classify 64 env_cycle 0 0 (chunk_size 64 ⟨0, 8⟩), []⟩ : Result) =
      ⟨0, 12, "Free", "", []⟩ from rfl]

theorem env_cycle_ws8 (nb : MallocChunk) (acc : List Result) :
    walk_step 64 env_cycle 0 0 0x20 8 ⟨0, 18446744073709551608⟩ nb acc =
      Sum.inr (0, ⟨0, 8⟩, acc ++ [⟨8, 18446744073709551612, "Free", "", []⟩]) := by
  unfold walk_step
  rw [show next_chunk 64 8 ⟨0, 18446744073709551608⟩ = 0 from rfl]
  rw [if_neg (by decide : ¬(0 : Nat) = 0x20)]
  rw [if_neg (by decide : ¬((0 : Nat) > 0x20 ∨ (0 : Nat) < 0))]
  rw [show (env_cycle.mem 0).getD nb = ⟨0, 8⟩ from rfl]
  rw [if_neg (by decide : ¬(8 : Nat) = 0)]
  rw [show (⟨8, chunk_size 64 ⟨0, 18446744073709551608⟩ + 4,
      if prev_inuse ⟨0, 8⟩ then "Busy" else "Free",
      classify 64 env_cycle 0 8 (chunk_size 64 ⟨0, 18446744073709551608⟩), []⟩ : Result) =
      ⟨8, 18446744073709551612, "Free", "", []⟩ from rfl]

theorem env_cycle_step0 (n : Nat) (cb nb : MallocChunk) (acc : List Result) :
    collect_blocks_loop 64 env_cycle 0 0 0x20 (n + 1) 0 cb nb acc =
    collect_blocks_loop 64 env_cycle 0 0 0x20 n 8 ⟨0, 8⟩ ⟨0, 18446744073709551608⟩
      (acc ++ [⟨0, 12, "Free", "", []⟩]) := by
  rw [collect_blocks_loop, if_neg (by decide : ¬(0 : Nat) = 0x20)]
  rw [show (env_cycle.mem 0).getD cb = ⟨0, 8⟩ from rfl]
  rw [env_cycle_ws0]

theorem env_cycle_step8 (n : Nat) (cb nb : MallocChunk) (acc : List Result) :
    collect_blocks_loop 64 env_cycle 0 0 0x20 (n + 1) 8 cb nb acc =
    collect_blocks_loop 64 env_cycle 0 0 0x20 n 0 ⟨0, 18446744073709551608⟩ ⟨0, 8⟩
      (acc ++ [⟨8, 18446744073709551612, "Free", "", []⟩]) := by
  rw [collect_blocks_loop, if_neg (by decide : ¬(8 : Nat) = 0x20)]
  rw [show (env_cycle.mem 8).getD cb = ⟨0, 18446744073709551608⟩ from rfl]
  rw [env_cycle_ws8]

/-- Claim C3 is contradicted by the code: on the 64-bit bounds
`[0, 0x20)` (so `start < end`) with the corrupted header
`size = 2^64 - 8` at address `8`, the next-chunk computation wraps
around and the walk cycles forever between addresses `0` and `8` —
every next address stays inside `[start, end)` and differs from the
current one, so neither stop condition ever fires and no fuel
suffices. -/
theorem c3_walk_diverges :
    ∀ (fuel : Nat) (cb nb : MallocChunk) (acc : List Result),
      collect_blocks_loop 64 env_cycle 0 0 0x20 fuel 0 cb nb acc = none := by
  have key : ∀ fuel,
      (∀ (cb nb : MallocChunk) (acc : List Result),
        collect_blocks_loop 64 env_cycle 0 0 0x20 fuel 0 cb nb acc = none) ∧
      (∀ (cb nb : MallocChunk) (acc : List Result),
        collect_blocks_loop 64 env_cycle 0 0 0x20 fuel 8 cb nb acc = none) := by
    intro fuel
    induction fuel with
    | zero => exact ⟨fun _ _ _ => rfl, fun _ _ _ => rfl⟩
    | succ n ih =>
      refine ⟨fun cb nb acc => ?_, fun cb nb acc => ?_⟩
      · rw [env_cycle_step0]
        exact ih.2 _ _ _
      · rw [env_cycle_step8]
        exact ih.1 _ _ _
  exact fun fuel => (key fuel).1

/-! ## Claim C4 -/

/-- Claim C4, counterexample: in a 64-bit walk the Busy chunk at
`0x1000` (header size field `0x11`, chunk size `0x10`) is recorded with
size `0x14 = chunkSize + sizeof(unsigned int)`, which is *not*
`chunkSize + sizeof(word)` = `0x10 + 8` on a 64-bit target. -/
theorem c4_counterexample :
    collect_blocks_loop 64 env_two 0 0x1000 0x1020 10 0x1000 ⟨0, 0⟩ ⟨0, 0⟩ [] =
      some [⟨0x1000, 0x14, "Busy", "", []⟩, ⟨0x1010, 0x10, "Top", "", []⟩] ∧
    env_two.mem 0x1000 = some ⟨0, 0x11⟩ ∧
    chunk_size 64 ⟨0, 0x11⟩ = 0x10 ∧
    (0x14 : Nat) ≠ chunk_size 64 ⟨0, 0x11⟩ + 64 / 8 := by decide

/-- Claim C4 (amended): for every chunk emitted by the walk whose header
is readable, the recorded size is the raw `chunk_size` when the state is
Top and `chunk_size + sizeof(unsigned int)` (4 bytes, on both address
widths) otherwise. -/
theorem c4_recorded_size (W : Nat) (env : WalkEnv) (msl s e fuel cur : Nat)
    (cb nb : MallocChunk) (res : List Result) (r : Result) (c : MallocChunk)
    (hrun : collect_blocks_loop W env msl s e fuel cur cb nb [] = some res)
    (hr : r ∈ res) (hc : env.mem r.block = some c) :
    (r.type = "Top" → r.size = chunk_size W c) ∧
    (r.type ≠ "Top" → r.size = chunk_size W c + 4) := by
  have hok := collect_blocks_loop_sound W env msl s e fuel cur cb nb [] res
    (by intro r h; cases h) hrun r hr c hc
  constructor
  · intro htype
    by_cases hnx : next_chunk W r.block c = e
    · exact (hok.1 hnx).2
    · rcases (hok.2 hnx).1 with h | h
      · rw [htype] at h; exact absurd h (by decide)
      · rw [htype] at h; exact absurd h (by decide)
  · intro htype
    by_cases hnx : next_chunk W r.block c = e
    · exact absurd (hok.1 hnx).1 htype
    · exact (hok.2 hnx).2.1

/-- Claim C4, witness: the amended theorem applied to the Busy chunk of
the `env_two` walk. -/
theorem c4_witness :
    ((⟨0x1000, 0x14, "Busy", "", []⟩ : Result).type = "Top" →
      (⟨0x1000, 0x14, "Busy", "", []⟩ : Result).size = chunk_size 64 ⟨0, 0x11⟩) ∧
    ((⟨0x1000, 0x14, "Busy", "", []⟩ : Result).type ≠ "Top" →
      (⟨0x1000, 0x14, "Busy", "", []⟩ : Result).size = chunk_size 64 ⟨0, 0x11⟩ + 4) :=
  c4_recorded_size 64 env_two 0 0x1000 0x1020 10 0x1000 ⟨0, 0⟩ ⟨0, 0⟩
    [⟨0x1000, 0x14, "Busy", "", []⟩, ⟨0x1010, 0x10, "Top", "", []⟩]
    ⟨0x1000, 0x14, "Busy", "", []⟩ ⟨0, 0x11⟩ (by decide) (by decide) (by decide)

/-! ## Claim C8 -/

/-- Claim C8: a non-Top chunk emitted by the walk, whose own header and
whose following chunk's header are both readable, is Busy exactly when
the PREV_INUSE bit of the following chunk's size field is set, and Free
exactly otherwise. -/
theorem c8_busy_iff_prev_inuse (W : Nat) (env : WalkEnv)
    (msl s e fuel cur : Nat) (cb nb : MallocChunk) (res : List Result)
    (r : Result) (c c' : MallocChunk)
    (hrun : collect_blocks_loop W env msl s e fuel cur cb nb [] = some res)
    (hr : r ∈ res) (hc : env.mem r.block = some c)
    (htype : r.type ≠ "Top")
    (hc' : env.mem (next_chunk W r.block c) = some c') :
    (r.type = "Busy" ↔ prev_inuse c' = true) ∧
    (r.type = "Free" ↔ prev_inuse c' = false) := by
  have hok := collect_blocks_loop_sound W env msl s e fuel cur cb nb [] res
    (by intro r h; cases h) hrun r hr c hc
  have hnx : next_chunk W r.block c ≠ e := by
    intro h
    exact htype (hok.1 h).1
  have heq := (hok.2 hnx).2.2 c' hc'
  cases hp : prev_inuse c'
  · rw [hp] at heq
    rw [heq]
    exact ⟨by decide, by decide⟩
  · rw [hp] at heq
    rw [heq]
    exact ⟨by decide, by decide⟩

/-- Claim C8, witness: the Busy chunk at `0x1000` of the `env_two` walk;
the following header at `0x1010` has size field `0x11`, whose PREV_INUSE
bit is set. -/
theorem c8_witness :
    ((⟨0x1000, 0x14, "Busy", "", []⟩ : Result).type = "Busy" ↔
      prev_inuse ⟨0, 0x11⟩ = true) ∧
    ((⟨0x1000, 0x14, "Busy", "", []⟩ : Result).type = "Free" ↔
      prev_inuse ⟨0, 0x11⟩ = false) :=
  c8_busy_iff_prev_inuse 64 env_two 0 0x1000 0x1020 10 0x1000 ⟨0, 0⟩ ⟨0, 0⟩
    [⟨0x1000, 0x14, "Busy", "", []⟩, ⟨0x1010, 0x10, "Top", "", []⟩]
    ⟨0x1000, 0x14, "Busy", "", []⟩ ⟨0, 0x11⟩ ⟨0, 0x11⟩
    (by decide) (by decide) (by decide) (by decide) (by decide)

/-! ## Claim C10 -/

/-- Claim C10: when the walk meets a self-referencing chunk — the header
at `cur` is readable, its chunk size is 0 so `next == current`, with
`cur` inside `[start, end)` — the offending chunk itself is emitted,
classified Busy or Free from its own PREV_INUSE bit (the next-header
re-read at `next == current` returns its own header), and the walk halts
with that chunk included in the retained results. -/
theorem c10_self_ref_emitted (W : Nat) (env : WalkEnv)
    (msl s e fuel cur : Nat) (cb nb : MallocChunk) (acc : List Result)
    (c : MallocChunk)
    (hs : s ≤ cur) (hce : cur < e) (hw : e ≤ 2 ^ W)
    (hc : env.mem cur = some c) (hz : chunk_size W c = 0) :
    collect_blocks_loop W env msl s e (fuel + 1) cur cb nb acc =
      some (acc ++ [⟨cur, 4, if prev_inuse c then "Busy" else "Free",
        classify W env msl cur 0, []⟩]) := by
  have hcur2 : cur < 2 ^ W := lt_of_lt_of_le hce hw
  have hnxt : next_chunk W cur c = cur := by
    unfold next_chunk
    rw [hz, Nat.add_zero, Nat.mod_eq_of_lt hcur2]
  rw [collect_blocks_loop, if_neg (Nat.ne_of_lt hce), hc]
  simp only [Option.getD_some]
  unfold walk_step
  rw [hnxt]
  have hnb : ¬(cur > e ∨ cur < s) := by
    push_neg
    exact ⟨le_of_lt hce, hs⟩
  rw [if_neg (Nat.ne_of_lt hce), if_neg hnb, hc]
  simp only [Option.getD_some]
  simp [hz]

/-- Claim C10, witness: a self-referencing chunk at `0x1000` with size
field `1` (chunk size 0, PREV_INUSE set → Busy) on bounds
`[0x1000, 0x1020)`. -/
theorem c10_witness :
    collect_blocks_loop 64 env_selfref 0 0x1000 0x1020 10 0x1000 ⟨0, 0⟩ ⟨0, 0⟩ [] =
      some ([] ++ [⟨0x1000, 4, if prev_inuse ⟨0, 1⟩ then "Busy" else "Free",
        classify 64 env_selfref 0 0x1000 0, []⟩]) :=
  c10_self_ref_emitted 64 env_selfref 0 0x1000 0x1020 9 0x1000 ⟨0, 0⟩ ⟨0, 0⟩ []
    ⟨0, 1⟩ (by decide) (by decide) (by decide) (by decide) (by decide)

/-! ## Helper lemmas about pointer detection -/

/-- Anything the targets index returns is the `block` address of one of
the indexed results, keyed by one of that result's payload-word
addresses. -/
theorem build_targets_fold_spec (W fuel : Nat) :
    ∀ (l : List Result) (t : Nat → Option Nat) (a b : Nat),
      (l.foldl (insert_targets W fuel) t) a = some b →
      t a = some b ∨ ∃ r ∈ l, b = r.block ∧ a ∈ payload_addrs W fuel r := by
  intro l
  induction l with
  | nil =>
    intro t a b h
    exact Or.inl h
  | cons r l' ih =>
    intro t a b h
    rcases ih (insert_targets W fuel t r) a b h with h' | ⟨r', hr', hb, ha⟩
    · unfold insert_targets at h'
      by_cases hmem : a ∈ payload_addrs W fuel r
      · rw [if_pos hmem] at h'
        injection h' with h'
        exact Or.inr ⟨r, List.mem_cons_self r l', h'.symm, hmem⟩
      · rw [if_neg hmem] at h'
        exact Or.inl h'
    · exact Or.inr ⟨r', List.mem_cons_of_mem r hr', hb, ha⟩

theorem build_targets_spec (W fuel : Nat) (results : List Result) (a b : Nat)
    (h : build_targets W fuel results a = some b) :
    ∃ r ∈ results, b = r.block ∧ a ∈ payload_addrs W fuel r := by
  rcases build_targets_fold_spec W fuel results (fun _ => none) a b h with h' | h'
  · cases h'
  · exact h'

/-- Every address the payload scan appends to `points_to` came out of a
successful lookup in the targets index. -/
theorem payload_scan_points (W : Nat) (env : DetectEnv)
    (targets : Nat → Option Nat) :
    ∀ (fuel ptr endp : Nat) (st : String × List Nat) (t : Nat),
      t ∈ (payload_scan W env targets fuel ptr endp st).2 →
      t ∈ st.2 ∨ ∃ v, targets v = some t := by
  intro fuel
  induction fuel with
  | zero =>
    intro ptr endp st t h
    exact Or.inl h
  | succ n ih =>
    intro ptr endp st t h
    rw [payload_scan] at h
    by_cases hlt : ptr < endp
    · rw [if_pos hlt] at h
      rcases hrw : env.readWord ptr with _ | pointer
      · simp only [hrw] at h
        exact ih _ _ _ _ h
      · rcases htg : targets pointer with _ | tgt
        · simp only [hrw, htg] at h
          exact ih _ _ _ _ h
        · simp only [hrw, htg] at h
          rcases ih _ _ _ _ h with h' | h'
          · rcases List.mem_append.mp h' with h'' | h''
            · exact Or.inl h''
            · rcases List.mem_singleton.mp h'' with rfl
              exact Or.inr ⟨pointer, htg⟩
          · exact Or.inr h'
    · rw [if_neg hlt] at h
      exact Or.inl h

/-! ## Claim C2 -/

/-- The two-chunk result set of the C2 counterexample. -/
def c2_results : List Result :=
  [⟨0x1000, 0x18, "Busy", "", []⟩, ⟨0x2000, 0x18, "Free", "", []⟩]

/-- Pointer-scan environment for the C2 scenario: the payload word at
`0x1010` (first payload word of the chunk at `0x1000`) holds `0x2010`,
the payload-start address of the chunk at `0x2000`. -/
def denv_c2 : DetectEnv :=
  ⟨fun a => if a = 0x1010 then some 0x2010 else some 0, fun _ => ""⟩

/-- Claim C2, counterexample: the recorded edge target is `0x2000` —
the *chunk address* (`Result.block`) of the owning chunk — which is not
the payload-start address (`block + 2 × pointer size`) of any chunk in
the index. -/
theorem c2_counterexample :
    (detect_pointers 64 10 denv_c2 c2_results).map (fun r => r.points_to) =
      [[0x2000], []] ∧
    ∀ r ∈ c2_results, (0x2000 : Nat) ≠ block_start 64 r.block := by decide

/-- Claim C2 (amended): every edge recorded by pointer detection on
results with empty initial edge lists targets the *chunk address*
(`block` field) of some chunk, one of whose payload-word addresses is
mapped to that chunk address in the PointerIndex. -/
theorem c2_edge_targets (W fuel : Nat) (env : DetectEnv)
    (results : List Result) (r' : Result) (t : Nat)
    (hinit : ∀ r ∈ results, r.points_to = [])
    (hr' : r' ∈ detect_pointers W fuel env results)
    (ht : t ∈ r'.points_to) :
    ∃ r ∈ results, t = r.block ∧ ∃ a, a ∈ payload_addrs W fuel r ∧
      build_targets W fuel results a = some t := by
  unfold detect_pointers at hr'
  rcases List.mem_map.mp hr' with ⟨r0, hr0, hproc⟩
  subst hproc
  unfold process_potential_pointer at ht
  by_cases hd : r0.data = ""
  · rw [if_pos hd] at ht
    simp only at ht
    rcases payload_scan_points W env (build_targets W fuel results) fuel
        (block_start W r0.block) ((block_start W r0.block + r0.size) % 2 ^ W)
        (r0.data, r0.points_to) t ht with h | ⟨v, hv⟩
    · rw [hinit r0 hr0] at h
      cases h
    · rcases build_targets_spec W fuel results v t hv with ⟨r, hr, hb, ha⟩
      exact ⟨r, hr, hb, v, ha, hb ▸ hv⟩
  · rw [if_neg hd] at ht
    rw [hinit r0 hr0] at ht
    cases ht

/-- Claim C2, witness for the amended theorem: in the `denv_c2` run the
edge out of the chunk at `0x1000` targets `0x2000`, the block address of
the second chunk, indexed under its payload word `0x2010`. -/
theorem c2_witness :
    ∃ r ∈ c2_results, (0x2000 : Nat) = r.block ∧ ∃ a, a ∈ payload_addrs 64 10 r ∧
      build_targets 64 10 c2_results a = some 0x2000 :=
  c2_edge_targets 64 10 denv_c2 c2_results
    ⟨0x1000, 0x18, "Busy", "qword ptr []", [0x2000]⟩ 0x2000
    (by decide) (by decide) (by decide)

/-! ## Claim C5 -/

/-- A walk environment whose string decoder finds the ASCII text `"AB"`
everywhere (used as the C5 witness instance). -/
def env_ascii : WalkEnv :=
  ⟨fun _ => none, fun _ _ _ => some "AB", fun _ _ _ => none,
   fun _ => List.replicate 16 0⟩

/-- Claim C5: content classification tries ASCII first, then UTF-16,
then the magic signatures in source order (PNG, XPM, BZip, compress,
GZip), else leaves the tag empty; and pointer detection never touches a
chunk whose tag is nonempty — neither its display text nor its edge
list changes, so a content-tagged chunk never carries a pointer
annotation or outgoing edges. -/
theorem c5_precedence :
    (∀ (W : Nat) (env : WalkEnv) (msl addr cs : Nat) (a : String),
      env.ascii (block_start W addr) msl cs = some a →
      classify W env msl addr cs = "ASCII \"" ++ a ++ "\"") ∧
    (∀ (W : Nat) (env : WalkEnv) (msl addr cs : Nat) (u : String),
      env.ascii (block_start W addr) msl cs = none →
      env.utf16 (block_start W addr) msl cs = some u →
      classify W env msl addr cs = "UTF-16 \"" ++ u ++ "\"") ∧
    (∀ (W : Nat) (env : WalkEnv) (msl addr cs : Nat),
      env.ascii (block_start W addr) msl cs = none →
      env.utf16 (block_start W addr) msl cs = none →
      (env.bytes16 (block_start W addr)).take 4 = [0x89, 0x50, 0x4e, 0x47] →
      classify W env msl addr cs = "PNG IMAGE") ∧
    (∀ (W : Nat) (env : WalkEnv) (msl addr cs : Nat),
      env.ascii (block_start W addr) msl cs = none →
      env.utf16 (block_start W addr) msl cs = none →
      (env.bytes16 (block_start W addr)).take 4 ≠ [0x89, 0x50, 0x4e, 0x47] →
      (env.bytes16 (block_start W addr)).take 9 =
        [0x2f, 0x2a, 0x20, 0x58, 0x50, 0x4d, 0x20, 0x2a, 0x2f] →
      classify W env msl addr cs = "XPM IMAGE") ∧
    (∀ (W : Nat) (env : WalkEnv) (msl addr cs : Nat),
      env.ascii (block_start W addr) msl cs = none →
      env.utf16 (block_start W addr) msl cs = none →
      (env.bytes16 (block_start W addr)).take 4 ≠ [0x89, 0x50, 0x4e, 0x47] →
      (env.bytes16 (block_start W addr)).take 9 ≠
        [0x2f, 0x2a, 0x20, 0x58, 0x50, 0x4d, 0x20, 0x2a, 0x2f] →
      (env.bytes16 (block_start W addr)).take 2 = [0x42, 0x5a] →
      classify W env msl addr cs = "BZIP FILE") ∧
    (∀ (W : Nat) (env : WalkEnv) (msl addr cs : Nat),
      env.ascii (block_start W addr) msl cs = none →
      env.utf16 (block_start W addr) msl cs = none →
      (env.bytes16 (block_start W addr)).take 4 ≠ [0x89, 0x50, 0x4e, 0x47] →
      (env.bytes16 (block_start W addr)).take 9 ≠
        [0x2f, 0x2a, 0x20, 0x58, 0x50, 0x4d, 0x20, 0x2a, 0x2f] →
      (env.bytes16 (block_start W addr)).take 2 ≠ [0x42, 0x5a] →
      (env.bytes16 (block_start W addr)).take 2 = [0x1f, 0x9d] →
      classify W env msl addr cs = "COMPRESS FILE") ∧
    (∀ (W : Nat) (env : WalkEnv) (msl addr cs : Nat),
      env.ascii (block_start W addr) msl cs = none →
      env.utf16 (block_start W addr) msl cs = none →
      (env.bytes16 (block_start W addr)).take 4 ≠ [0x89, 0x50, 0x4e, 0x47] →
      (env.bytes16 (block_start W addr)).take 9 ≠
        [0x2f, 0x2a, 0x20, 0x58, 0x50, 0x4d, 0x20, 0x2a, 0x2f] →
      (env.bytes16 (block_start W addr)).take 2 ≠ [0x42, 0x5a] →
      (env.bytes16 (block_start W addr)).take 2 ≠ [0x1f, 0x9d] →
      (env.bytes16 (block_start W addr)).take 2 = [0x1f, 0x8b] →
      classify W env msl addr cs = "GZIP FILE") ∧
    (∀ (W fuel : Nat) (env : DetectEnv) (targets : Nat → Option Nat) (r : Result),
      r.data ≠ "" → process_potential_pointer W fuel env targets r = r) ∧
    (∀ (W fuel : Nat) (env : DetectEnv) (results : List Result) (r : Result),
      r ∈ results → r.data ≠ "" → r ∈ detect_pointers W fuel env results) := by
  refine ⟨?_, ?_, ?_, ?_, ?_, ?_, ?_, ?_, ?_⟩
  · intro W env msl addr cs a h
    simp only [classify, h]
  · intro W env msl addr cs u h1 h2
    simp only [classify, h1, h2]
  · intro W env msl addr cs h1 h2 h3
    simp only [classify, h1, h2, if_pos h3]
  · intro W env msl addr cs h1 h2 h3 h4
    simp only [classify, h1, h2, if_neg h3, if_pos h4]
  · intro W env msl addr cs h1 h2 h3 h4 h5
    simp only [classify, h1, h2, if_neg h3, if_neg h4, if_pos h5]
  · intro W env msl addr cs h1 h2 h3 h4 h5 h6
    simp only [classify, h1, h2, if_neg h3, if_neg h4, if_neg h5, if_pos h6]
  · intro W env msl addr cs h1 h2 h3 h4 h5 h6 h7
    simp only [classify, h1, h2, if_neg h3, if_neg h4, if_neg h5, if_neg h6, if_pos h7]
  · intro W fuel env targets r h
    unfold process_potential_pointer
    rw [if_neg h]
  · intro W fuel env results r hr h
    have hp : process_potential_pointer W fuel env (build_targets W fuel results) r = r := by
      unfold process_potential_pointer
      rw [if_neg h]
    unfold detect_pointers
    exact List.mem_map.mpr ⟨r, hr, hp⟩

/-- Claim C5, witness: the precedence theorem applied at a concrete
environment (ASCII decoder succeeds, so the ASCII tag wins) and at a
concrete PNG-tagged chunk, which pointer detection returns untouched. -/
theorem c5_witness :
    classify 64 env_ascii 4 0x1000 0x10 = "ASCII \"" ++ "AB" ++ "\"" ∧
    process_potential_pointer 64 10 denv_c2 (build_targets 64 10 c2_results)
      ⟨0x1000, 8, "Busy", "PNG IMAGE", []⟩ = ⟨0x1000, 8, "Busy", "PNG IMAGE", []⟩ :=
  ⟨c5_precedence.1 64 env_ascii 4 0x1000 0x10 "AB" rfl,
   c5_precedence.2.2.2.2.2.2.2.1 64 10 denv_c2 (build_targets 64 10 c2_results)
     ⟨0x1000, 8, "Busy", "PNG IMAGE", []⟩ (by decide)⟩

/-! ## Helper lemmas about the heap-start scan -/

/-- `find?` on a strictly increasing list returns the element `o` when
`p` holds at `o` and fails at every smaller member. -/
theorem find_first_in_sorted (p : Nat → Bool) :
    ∀ l : List Nat, List.Pairwise (· < ·) l →
      ∀ o ∈ l, p o = true → (∀ o' ∈ l, o' < o → p o' = false) →
      l.find? p = some o := by
  intro l
  induction l with
  | nil =>
    intro _ o ho
    cases ho
  | cons a l' ih =>
    intro hpw o ho hp hmin
    rcases List.mem_cons.mp ho with rfl | ho'
    · exact List.find?_cons_of_pos l' hp
    · have halt : a < o := List.rel_of_pairwise_cons hpw ho'
      have hpa : p a = false := hmin a (List.mem_cons_self a l') halt
      rw [List.find?_cons_of_neg l' (by simp [hpa])]
      exact ih hpw.of_cons o ho' hp
        (fun o' ho'' hlt => hmin o' (List.mem_cons_of_mem a ho'') hlt)

/-- The offset sequence `0, ps, 2·ps, …` of the `do_find` scan is
strictly increasing. -/
theorem offsets_pairwise (ps n : Nat) (hps : 0 < ps) :
    List.Pairwise (· < ·) ((List.range n).map (fun i => i * ps)) :=
  List.pairwise_map.mpr
    ((List.pairwise_lt_range n).imp
      (fun hab => (Nat.mul_lt_mul_right hps).mpr hab))

/-! ## Claim C9 -/

/-- Probe environment for the C9 counterexample: the word at `0x1FE0`
(= `0x2000 - 4 × 8`) equals the page size 4096; every other address
reads as 0. -/
def fenv_c9 : FindEnv :=
  ⟨fun a => if a = 0x1FE0 then some 4096 else some 0, 4096⟩

set_option maxRecDepth 4000 in
/-- Claim C9, counterexample: at `end = 0x2000`, offset 0, the heuristic
*accepts* and returns `end − offset = 0x2000` — not
`end − offset − 4×pointerSize = 0x1FE0` as the claim states — and it
accepts although the word immediately before the claim's candidate
(at `0x1FE0 − 8 = 0x1FD8`) is 0, not the page size: the probe actually
read is at `end − offset − 4×pointerSize` itself. -/
theorem c9_counterexample :
    find_heap_start_heuristic 64 fenv_c9 0 0x2000 0 = 0x2000 ∧
    do_find_scan 64 fenv_c9 0 0x2000 = 0x2000 ∧
    (0x2000 : Nat) ≠ 0x2000 - 0 - 4 * (64 / 8) ∧
    fenv_c9.readWord (0x2000 - 0 - 4 * (64 / 8) - 64 / 8) = some 0 ∧
    (0 : Nat) ≠ fenv_c9.page_size := by decide

/-- Claim C9 (amended): the fallback scan iterates offsets from 0 up to
0x1000 stepping by pointer size; for each offset the candidate start is
`end − offset`, the probed word sits at `candidate − 4 × pointerSize`
(on the 32-bit build the source spells the displacement
`3·sizeof(address) + sizeof(unsigned int)`, also 4 × pointerSize), and
the candidate is accepted exactly when the probed word reads
successfully and equals the page size; the scan returns the first
accepted candidate, and 0 when every offset is rejected. -/
theorem c9_heuristic_scan (W : Nat) (env : FindEnv) (junk e : Nat) :
    (∀ o v, env.readWord (addr_sub W (addr_sub W e o) (4 * (W / 8))) = some v →
      find_heap_start_heuristic W env junk e o =
        if v = env.page_size then addr_sub W e o else 0) ∧
    ((∀ o ∈ (List.range (0x1000 / (W / 8))).map (fun i => i * (W / 8)),
        find_heap_start_heuristic W env junk e o = 0) →
      do_find_scan W env junk e = 0) ∧
    (0 < W / 8 →
      ∀ o ∈ (List.range (0x1000 / (W / 8))).map (fun i => i * (W / 8)),
        find_heap_start_heuristic W env junk e o ≠ 0 →
        (∀ o' ∈ (List.range (0x1000 / (W / 8))).map (fun i => i * (W / 8)),
          o' < o → find_heap_start_heuristic W env junk e o' = 0) →
        do_find_scan W env junk e = find_heap_start_heuristic W env junk e o) := by
  refine ⟨?_, ?_, ?_⟩
  · intro o v h
    simp only [find_heap_start_heuristic, h, Option.getD_some]
    by_cases hv : v = env.page_size
    · rw [if_neg (by simpa using hv), if_pos hv]
    · rw [if_pos hv, if_neg hv]
  · intro hall
    simp only [do_find_scan]
    rw [List.find?_eq_none.mpr (fun o ho => by simp [hall o ho])]
  · intro hps o ho hacc hmin
    simp only [do_find_scan]
    rw [find_first_in_sorted _ _ (offsets_pairwise (W / 8) _ hps) o ho
      (by simpa using hacc) (fun o' ho' hlt => by simpa using hmin o' ho' hlt)]

set_option maxRecDepth 4000 in
/-- Claim C9, witness: the amended theorem at the `fenv_c9` instance —
the probe for offset 0 reads 4096 (the page size), so the heuristic
returns `end − 0 = 0x2000`, and the scan returns that first accepted
candidate. -/
theorem c9_witness :
    find_heap_start_heuristic 64 fenv_c9 0 0x2000 0 =
      (if 4096 = fenv_c9.page_size then addr_sub 64 0x2000 0 else 0) ∧
    do_find_scan 64 fenv_c9 0 0x2000 =
      find_heap_start_heuristic 64 fenv_c9 0 0x2000 0 :=
  ⟨(c9_heuristic_scan 64 fenv_c9 0 0x2000).1 0 4096 (by decide),
   (c9_heuristic_scan 64 fenv_c9 0 0x2000).2.2 (by decide) 0 (by decide)
     (by decide) (fun o' ho' hlt => absurd hlt (by omega))⟩

/-! ## Helper lemmas about the graph builder -/

theorem node_insert_mem (nodes : List Nat) (a b : Nat) :
    b ∈ node_insert nodes a ↔ b ∈ nodes ∨ b = a := by
  unfold node_insert
  by_cases h : a ∈ nodes
  · rw [if_pos h]
    constructor
    · exact Or.inl
    · rintro (hb | rfl)
      · exact hb
      · exact h
  · rw [if_neg h]
    simp [List.mem_append]

/-- A DFS whose whole stack has empty edge lists just pops every entry
into the node map. -/
theorem graph_dfs_no_ptrs (rmap : List (Nat × Result)) :
    ∀ (stack : List Result) (seen nodes : List Nat),
      (∀ r ∈ stack, r.points_to = []) →
      graph_dfs rmap (stack.length + 1) stack seen nodes =
        some (stack.foldl (fun m r => node_insert m r.block) nodes) := by
  intro stack
  induction stack with
  | nil =>
    intro seen nodes _
    rfl
  | cons r rest ih =>
    intro seen nodes hall
    simp only [List.length_cons]
    rw [graph_dfs]
    simp only [hall r (List.mem_cons_self r rest), List.foldl]
    exact ih seen (node_insert nodes r.block)
      (fun x hx => hall x (List.mem_cons_of_mem r hx))

/-- Folding distinct fresh blocks into the node map grows it by exactly
the stack length. -/
theorem node_insert_foldl_length :
    ∀ (stack : List Result) (nodes : List Nat),
      (stack.map (fun r => r.block)).Nodup →
      (∀ r ∈ stack, r.block ∉ nodes) →
      (stack.foldl (fun m r => node_insert m r.block) nodes).length =
        nodes.length + stack.length := by
  intro stack
  induction stack with
  | nil =>
    intro nodes _ _
    simp
  | cons r rest ih =>
    intro nodes hnd hdisj
    simp only [List.map_cons, List.nodup_cons] at hnd
    simp only [List.foldl]
    have hni : node_insert nodes r.block = nodes ++ [r.block] := by
      unfold node_insert
      rw [if_neg (hdisj r (List.mem_cons_self r rest))]
    have hdisj' : ∀ x ∈ rest, x.block ∉ nodes ++ [r.block] := by
      intro x hx
      simp only [List.mem_append, List.mem_singleton]
      push_neg
      refine ⟨hdisj x (List.mem_cons_of_mem r hx), fun heq => ?_⟩
      exact hnd.1 (heq ▸ List.mem_map_of_mem (fun r => r.block) hx)
    rw [hni, ih (nodes ++ [r.block]) hnd.2 hdisj']
    simp only [List.length_append, List.length_cons, List.length_nil]
    omega

/-! ## Claim C6 -/

/-- Claim C6: whenever the DFS of a graph request completes with a
visited set of more than 3000 nodes, the graph builder returns the
GraphTooLarge outcome and produces no graph (the chunk list and its
edge data are inputs the builder only reads, so they are untouched). -/
theorem c6_too_large (fuel : Nat) (results seeds : List Result)
    (visited : List Nat)
    (hdfs : graph_dfs (build_result_map results) fuel seeds.reverse
      (seeds.map (fun r => r.block)) [] = some visited)
    (hbig : visited.length > 3000) :
    build_graph fuel results seeds = some GraphResult.tooLarge := by
  simp only [build_graph]
  rw [hdfs]
  simp only [if_pos hbig]

/-- 3001 chunks with no outgoing edges, all selected as seeds: the
visited set of the graph request is all 3001 of them. -/
def c6_seeds : List Result :=
  (List.range 3001).map (fun i => ⟨i, 0, "", "", []⟩)

/-- Claim C6, witness: with 3001 seed chunks the DFS visits 3001 > 3000
nodes and the builder fails with GraphTooLarge. -/
theorem c6_witness :
    build_graph 3002 c6_seeds c6_seeds = some GraphResult.tooLarge := by
  have hall : ∀ r ∈ c6_seeds.reverse, r.points_to = [] := by
    intro r hr
    rw [List.mem_reverse] at hr
    rcases List.mem_map.mp hr with ⟨i, _, rfl⟩
    rfl
  have hdfs := graph_dfs_no_ptrs (build_result_map c6_seeds) c6_seeds.reverse
    (c6_seeds.map (fun r => r.block)) [] hall
  have hfuel : c6_seeds.reverse.length + 1 = 3002 := by
    simp [c6_seeds]
  rw [hfuel] at hdfs
  have hnd : (c6_seeds.reverse.map (fun r => r.block)).Nodup := by
    rw [List.map_reverse, List.nodup_reverse]
    have : c6_seeds.map (fun r => r.block) = List.range 3001 := by
      unfold c6_seeds
      rw [List.map_map,
        show ((fun r => r.block) ∘ fun i => (⟨i, 0, "", "", []⟩ : Result)) = id from rfl,
        List.map_id]
    rw [this]
    exact List.nodup_range 3001
  have hlen : (c6_seeds.reverse.foldl (fun m r => node_insert m r.block) []).length =
      3001 := by
    rw [node_insert_foldl_length c6_seeds.reverse [] hnd
      (fun r _ => List.not_mem_nil r.block)]
    simp [c6_seeds]
  exact c6_too_large 3002 c6_seeds c6_seeds _ hdfs (by rw [hlen]; decide)

/-! ## Helper lemmas about the result map -/

theorem map_insert_entries (P : Nat × Result → Prop) (m : List (Nat × Result))
    (r : Result) (hm : ∀ p ∈ m, P p) (hr : P (r.block, r)) :
    ∀ p ∈ map_insert m r, P p := by
  intro p hp
  unfold map_insert at hp
  by_cases hany : m.any (fun p => p.1 == r.block)
  · rw [if_pos hany] at hp
    rcases List.mem_map.mp hp with ⟨q, hq, hpq⟩
    by_cases hqb : q.1 == r.block
    · rw [if_pos hqb] at hpq
      exact hpq ▸ hr
    · rw [if_neg hqb] at hpq
      exact hpq ▸ hm q hq
  · rw [if_neg hany] at hp
    rcases List.mem_append.mp hp with h | h
    · exact hm p h
    · rcases List.mem_singleton.mp h with rfl
      exact hr

/-- Every entry of the result map pairs a member of `results` with its
own block address. -/
theorem result_map_entries (results : List Result) :
    ∀ p ∈ build_result_map results, p.2 ∈ results ∧ p.1 = p.2.block := by
  have key : ∀ (l : List Result) (m : List (Nat × Result)),
      (∀ r ∈ l, r ∈ results) →
      (∀ p ∈ m, p.2 ∈ results ∧ p.1 = p.2.block) →
      ∀ p ∈ l.foldl map_insert m, p.2 ∈ results ∧ p.1 = p.2.block := by
    intro l
    induction l with
    | nil => intro m _ hm; exact hm
    | cons r l' ih =>
      intro m hl hm
      exact ih (map_insert m r)
        (fun x hx => hl x (List.mem_cons_of_mem r hx))
        (map_insert_entries _ m r hm ⟨hl r (List.mem_cons_self r l'), rfl⟩)
  exact key results [] (fun _ h => h) (fun _ h => absurd h (List.not_mem_nil _))

theorem map_lookup_entry (m : List (Nat × Result)) (k : Nat) (v : Result)
    (h : map_lookup m k = some v) : (k, v) ∈ m := by
  unfold map_lookup at h
  rcases hf : m.find? (fun p => p.1 == k) with _ | p
  · rw [hf] at h
    cases h
  · rw [hf] at h
    injection h with h
    have hm := List.mem_of_find?_eq_some hf
    have hk : p.1 = k := Nat.eq_of_beq_eq_true (by simpa using List.find?_some hf)
    have : p = (k, v) := by
      rcases p with ⟨p1, p2⟩
      simp only at h hk
      rw [hk, h]
    exact this ▸ hm

theorem result_map_lookup (results : List Result) (k : Nat) (v : Result)
    (h : map_lookup (build_result_map results) k = some v) :
    v ∈ results ∧ v.block = k := by
  have hmem := map_lookup_entry _ _ _ h
  have := result_map_entries results (k, v) hmem
  exact ⟨this.1, this.2.symm⟩

/-- A key present in an association list is found by `map_lookup`. -/
theorem map_lookup_present (m : List (Nat × Result)) (k : Nat)
    (h : ∃ p ∈ m, p.1 = k) : ∃ v, map_lookup m k = some v := by
  rcases hf : m.find? (fun p => p.1 == k) with _ | p
  · rcases h with ⟨p, hp, hk⟩
    have := List.find?_eq_none.mp hf p hp
    simp [hk] at this
  · exact ⟨p.2, by unfold map_lookup; rw [hf]; rfl⟩

theorem map_insert_present (m : List (Nat × Result)) (r : Result) (k : Nat)
    (h : ∃ p ∈ m, p.1 = k) : ∃ p ∈ map_insert m r, p.1 = k := by
  rcases h with ⟨p, hp, hk⟩
  unfold map_insert
  by_cases hany : m.any (fun p => p.1 == r.block)
  · rw [if_pos hany]
    by_cases hpb : p.1 == r.block
    · refine ⟨(r.block, r), List.mem_map.mpr ⟨p, hp, by rw [if_pos hpb]⟩, ?_⟩
      have : p.1 = r.block := Nat.eq_of_beq_eq_true (by simpa using hpb)
      rw [← this, hk]
    · exact ⟨p, List.mem_map.mpr ⟨p, hp, by rw [if_neg hpb]⟩, hk⟩
  · rw [if_neg hany]
    exact ⟨p, List.mem_append_left _ hp, hk⟩

theorem map_insert_present_self (m : List (Nat × Result)) (r : Result) :
    ∃ p ∈ map_insert m r, p.1 = r.block := by
  unfold map_insert
  by_cases hany : m.any (fun p => p.1 == r.block)
  · rw [if_pos hany]
    rcases List.any_eq_true.mp hany with ⟨q, hq, hqb⟩
    exact ⟨(r.block, r), List.mem_map.mpr ⟨q, hq, by rw [if_pos hqb]⟩, rfl⟩
  · rw [if_neg hany]
    exact ⟨(r.block, r), List.mem_append_right _ (List.mem_singleton.mpr rfl), rfl⟩

/-- Every result of the scan has an entry under its block address. -/
theorem result_map_lookup_mem (results : List Result) (r : Result)
    (hr : r ∈ results) :
    ∃ v, map_lookup (build_result_map results) r.block = some v := by
  apply map_lookup_present
  have key : ∀ (l : List Result) (m : List (Nat × Result)),
      (∃ x ∈ m, x.1 = r.block) ∨ r ∈ l →
      ∃ p ∈ l.foldl map_insert m, p.1 = r.block := by
    intro l
    induction l with
    | nil =>
      intro m h
      rcases h with h | h
      · exact h
      · cases h
    | cons x l' ih =>
      intro m h
      apply ih (map_insert m x)
      rcases h with h | h
      · exact Or.inl (map_insert_present m x r.block h)
      · rcases List.mem_cons.mp h with rfl | h'
        · exact Or.inl (map_insert_present_self m r)
        · exact Or.inr h'
  exact key results [] (Or.inr hr)

/-- With distinct block addresses, looking up a result's own block
returns exactly that result. -/
theorem result_map_lookup_self (results : List Result)
    (hnd : (results.map (fun r => r.block)).Nodup) (r : Result)
    (hr : r ∈ results) :
    map_lookup (build_result_map results) r.block = some r := by
  rcases result_map_lookup_mem results r hr with ⟨v, hv⟩
  rcases result_map_lookup results _ _ hv with ⟨hvmem, hvblk⟩
  have : v = r := List.inj_on_of_nodup_map hnd hvmem hr hvblk
  rw [this] at hv
  exact hv

theorem graph_edges_mem :
    ∀ (m : List (Nat × Result)) (nodes : List Nat) (e : Nat × Nat),
      e ∈ graph_edges m nodes →
      e.1 ∈ nodes ∧ ∃ v, (e.1, v) ∈ m ∧ e.2 ∈ v.points_to := by
  intro m
  induction m with
  | nil =>
    intro nodes e he
    cases he
  | cons p rest ih =>
    intro nodes e he
    rw [graph_edges] at he
    rcases List.mem_append.mp he with h | h
    · by_cases hp : p.1 ∈ nodes
      · rw [if_pos hp] at h
        rcases List.mem_map.mp h with ⟨q, hq, rfl⟩
        exact ⟨hp, p.2, List.mem_cons_self p rest, hq⟩
      · rw [if_neg hp] at h
        cases h
    · rcases ih nodes e h with ⟨h1, v, h2, h3⟩
      exact ⟨h1, v, List.mem_cons_of_mem p h2, h3⟩

theorem dfs_push_cases (rmap : List (Nat × Result))
    (st0 : List Result × List Nat) (ptr : Nat) :
    (dfs_push rmap st0 ptr = st0 ∧
      (∀ x, map_lookup rmap ptr = some x → x.block ∈ st0.2)) ∨
    (∃ next, map_lookup rmap ptr = some next ∧
      dfs_push rmap st0 ptr = (next :: st0.1, st0.2 ++ [next.block])) := by
  rcases hlk : map_lookup rmap ptr with _ | next
  · refine Or.inl ⟨?_, fun x hx => ?_⟩
    · simp only [dfs_push, hlk]
    · cases hx
  · by_cases hmem : next.block ∈ st0.2
    · refine Or.inl ⟨?_, fun x hx => ?_⟩
      · simp only [dfs_push, hlk, if_pos hmem]
      · injection hx with hx
        exact hx ▸ hmem
    · exact Or.inr ⟨next, rfl, by simp only [dfs_push, hlk, if_neg hmem]⟩

/-- Cumulative facts about folding `dfs_push` over a pointer list:
(1) every stack entry is an old one or the resolution of one of the
pointers; (2)/(3) the seen set and the stack only grow; (4) every
resolvable pointer's block is seen afterwards; (5) every new seen block
is the block of some stack entry. -/
theorem dfs_push_facts (rmap : List (Nat × Result)) :
    ∀ (ptrs : List Nat) (st0 : List Result × List Nat),
      (∀ x ∈ (ptrs.foldl (dfs_push rmap) st0).1,
        x ∈ st0.1 ∨ ∃ ptr ∈ ptrs, map_lookup rmap ptr = some x) ∧
      (∀ b ∈ st0.2, b ∈ (ptrs.foldl (dfs_push rmap) st0).2) ∧
      (∀ x ∈ st0.1, x ∈ (ptrs.foldl (dfs_push rmap) st0).1) ∧
      (∀ ptr ∈ ptrs, ∀ x, map_lookup rmap ptr = some x →
        x.block ∈ (ptrs.foldl (dfs_push rmap) st0).2) ∧
      (∀ b ∈ (ptrs.foldl (dfs_push rmap) st0).2,
        b ∈ st0.2 ∨ ∃ x ∈ (ptrs.foldl (dfs_push rmap) st0).1, x.block = b) := by
  intro ptrs
  induction ptrs with
  | nil =>
    intro st0
    exact ⟨fun x hx => Or.inl hx, fun b hb => hb, fun x hx => hx,
      fun ptr hptr => absurd hptr (List.not_mem_nil ptr),
      fun b hb => Or.inl hb⟩
  | cons ptr rest ih =>
    intro st0
    simp only [List.foldl_cons]
    rcases ih (dfs_push rmap st0 ptr) with ⟨ih1, ih2, ih3, ih4, ih5⟩
    rcases dfs_push_cases rmap st0 ptr with ⟨heq, hseen⟩ | ⟨next, hlk, heq⟩
    · rw [heq] at ih1 ih2 ih3 ih4 ih5 ⊢
      refine ⟨?_, ih2, ih3, ?_, ?_⟩
      · intro x hx
        rcases ih1 x hx with h | ⟨p, hp, hl⟩
        · exact Or.inl h
        · exact Or.inr ⟨p, List.mem_cons_of_mem ptr hp, hl⟩
      · intro p hp x hx
        rcases List.mem_cons.mp hp with rfl | hp'
        · exact ih2 _ (hseen x hx)
        · exact ih4 p hp' x hx
      · exact ih5
    · rw [heq] at ih1 ih2 ih3 ih4 ih5 ⊢
      refine ⟨?_, ?_, ?_, ?_, ?_⟩
      · intro x hx
        rcases ih1 x hx with h | ⟨p, hp, hl⟩
        · rcases List.mem_cons.mp h with rfl | h'
          · exact Or.inr ⟨ptr, List.mem_cons_self ptr rest, hlk⟩
          · exact Or.inl h'
        · exact Or.inr ⟨p, List.mem_cons_of_mem ptr hp, hl⟩
      · intro b hb
        exact ih2 b (List.mem_append_left _ hb)
      · intro x hx
        exact ih3 x (List.mem_cons_of_mem next hx)
      · intro p hp x hx
        rcases List.mem_cons.mp hp with rfl | hp'
        · rw [hlk] at hx
          injection hx with hx
          subst hx
          exact ih2 _ (List.mem_append_right _ (List.mem_singleton.mpr rfl))
        · exact ih4 p hp' x hx
      · intro b hb
        rcases ih5 b hb with h | h
        · rcases List.mem_append.mp h with h' | h'
          · exact Or.inl h'
          · rcases List.mem_singleton.mp h' with rfl
            exact Or.inr ⟨next, ih3 next (List.mem_cons_self next st0.1), rfl⟩
        · exact Or.inr h

/-- Main DFS invariant: starting from a stack of reachable results
drawn from the scan, with the bookkeeping invariants between `seen`,
`nodes` and the stack, a completed traversal yields a visited set whose
members are all reachable and closed under recorded edges. -/
theorem graph_dfs_invariant (results : List Result) (seeds : List Nat)
    (hnd : (results.map (fun r => r.block)).Nodup)
    (hclosed : ∀ r ∈ results, ∀ p ∈ r.points_to, ∃ r' ∈ results, r'.block = p) :
    ∀ (fuel : Nat) (stack : List Result) (seen nodes out : List Nat),
      (∀ r ∈ stack, r ∈ results ∧ Reach results seeds r.block) →
      (∀ b ∈ nodes, Reach results seeds b) →
      (∀ b ∈ nodes, ∀ v, map_lookup (build_result_map results) b = some v →
        ∀ p ∈ v.points_to, p ∈ seen) →
      (∀ b ∈ seen, b ∈ nodes ∨ ∃ r ∈ stack, r.block = b) →
      graph_dfs (build_result_map results) fuel stack seen nodes = some out →
      (∀ b ∈ out, Reach results seeds b) ∧
      (∀ b ∈ out, ∀ v, map_lookup (build_result_map results) b = some v →
        ∀ p ∈ v.points_to, p ∈ out) := by
  intro fuel
  induction fuel with
  | zero =>
    intro stack seen nodes out _ _ _ _ hrun
    cases hrun
  | succ n ih =>
    intro stack seen nodes out hstack hnodes hloc hseen hrun
    rcases stack with _ | ⟨r, rest⟩
    · rw [graph_dfs] at hrun
      have hout : some nodes = some out := hrun
      injection hout with hout
      subst hout
      refine ⟨hnodes, fun b hb v hv p hp => ?_⟩
      rcases hseen p (hloc b hb v hv p hp) with h | ⟨x, hx, _⟩
      · exact h
      · cases hx
    · rw [graph_dfs] at hrun
      have hrun2 : graph_dfs (build_result_map results) n
          (r.points_to.foldl (dfs_push (build_result_map results)) (rest, seen)).1
          (r.points_to.foldl (dfs_push (build_result_map results)) (rest, seen)).2
          (node_insert nodes r.block) = some out := hrun
      rcases dfs_push_facts (build_result_map results) r.points_to (rest, seen)
        with ⟨f1, f2, f3, f4, f5⟩
      rcases hstack r (List.mem_cons_self r rest) with ⟨hrmem, hrreach⟩
      refine ih _ _ _ out ?_ ?_ ?_ ?_ hrun2
      · -- stack entries: members of results, reachable
        intro x hx
        rcases f1 x hx with h | ⟨p, hp, hl⟩
        · exact hstack x (List.mem_cons_of_mem r h)
        · rcases result_map_lookup results p x hl with ⟨hxmem, hxblk⟩
          exact ⟨hxmem, hxblk ▸ Reach.step r.block p r hrreach hrmem rfl hp⟩
      · -- nodes: reachable
        intro b hb
        rcases (node_insert_mem nodes r.block b).mp hb with h | rfl
        · exact hnodes b h
        · exact hrreach
      · -- nodes closed into seen
        intro b hb v hv p hp
        rcases (node_insert_mem nodes r.block b).mp hb with h | rfl
        · exact f2 p (hloc b h v hv p hp)
        · have hvr : v = r := by
            have hself := result_map_lookup_self results hnd r hrmem
            rw [hself] at hv
            injection hv with hv
            exact hv.symm
          subst hvr
          rcases hclosed v hrmem p hp with ⟨r', hr'mem, hr'blk⟩
          have hlk : map_lookup (build_result_map results) p = some r' := by
            rw [← hr'blk]
            exact result_map_lookup_self results hnd r' hr'mem
          have := f4 p hp r' hlk
          rw [hr'blk] at this
          exact this
      · -- seen: in nodes or on the stack
        intro b hb
        rcases f5 b hb with h | h
        · rcases hseen b h with h' | ⟨x, hx, hxb⟩
          · exact Or.inl ((node_insert_mem nodes r.block b).mpr (Or.inl h'))
          · rcases List.mem_cons.mp hx with heq | hx'
            · exact Or.inl ((node_insert_mem nodes r.block b).mpr
                (Or.inr (heq ▸ hxb).symm))
            · exact Or.inr ⟨x, f3 x hx', hxb⟩
        · exact Or.inr h

/-! ## Claim C7 -/

/-- Claim C7: for a graph actually produced by the builder (on a result
set with distinct block addresses whose recorded edges all resolve to
chunks of the set — both guaranteed by the scan pipeline — and seeds
drawn from the set), every node is reachable from the seed set along
recorded `points_to` edges, and every edge has both endpoints in the
visited node set. -/
theorem c7_graph_sound (fuel : Nat) (results seeds : List Result)
    (nodes : List Nat) (edges : List (Nat × Nat))
    (hnd : (results.map (fun r => r.block)).Nodup)
    (hseeds : ∀ s ∈ seeds, s ∈ results)
    (hclosed : ∀ r ∈ results, ∀ p ∈ r.points_to, ∃ r' ∈ results, r'.block = p)
    (hrun : build_graph fuel results seeds = some (GraphResult.graph nodes edges)) :
    (∀ a ∈ nodes, Reach results (seeds.map (fun r => r.block)) a) ∧
    (∀ e ∈ edges, e.1 ∈ nodes ∧ e.2 ∈ nodes) := by
  simp only [build_graph] at hrun
  rcases hdfs : graph_dfs (build_result_map results) fuel seeds.reverse
      (seeds.map (fun r => r.block)) [] with _ | visited
  · rw [hdfs] at hrun
    cases hrun
  · rw [hdfs] at hrun
    have hrun2 : (if visited.length > 3000 then some GraphResult.tooLarge
        else some (GraphResult.graph visited
          (graph_edges (build_result_map results) visited))) =
        some (GraphResult.graph nodes edges) := hrun
    by_cases hbig : visited.length > 3000
    · rw [if_pos hbig] at hrun2
      have : GraphResult.tooLarge = GraphResult.graph nodes edges := by
        injection hrun2
      cases this
    · rw [if_neg hbig] at hrun2
      injection hrun2 with hg
      injection hg with hn he
      subst hn
      subst he
      have hinv := graph_dfs_invariant results (seeds.map (fun r => r.block))
        hnd hclosed fuel seeds.reverse (seeds.map (fun r => r.block)) [] visited
        ?_ ?_ ?_ ?_ hdfs
      · refine ⟨hinv.1, fun e he => ?_⟩
        rcases graph_edges_mem (build_result_map results) visited e he
          with ⟨h1, v, h2, h3⟩
        have hvent := result_map_entries results (e.1, v) h2
        have hlk : map_lookup (build_result_map results) e.1 = some v := by
          rw [hvent.2]
          exact result_map_lookup_self results hnd v hvent.1
        exact ⟨h1, hinv.2 e.1 h1 v hlk e.2 h3⟩
      · intro r hr
        rw [List.mem_reverse] at hr
        exact ⟨hseeds r hr, Reach.seed r.block
          (List.mem_map_of_mem (fun r => r.block) hr)⟩
      · intro b hb
        cases hb
      · intro b hb v hv p hp
        cases hb
      · intro b hb
        rcases List.mem_map.mp hb with ⟨r, hr, hrb⟩
        exact Or.inr ⟨r, List.mem_reverse.mpr hr, hrb⟩

/-- Result set and seed for the C7 witness: chunk `0x10` points to
chunk `0x20`; the produced graph is `{0x10, 0x20}` with one edge. -/
def c7_results : List Result :=
  [⟨0x10, 8, "Busy", "", [0x20]⟩, ⟨0x20, 8, "Free", "", []⟩]

def c7_seeds : List Result := [⟨0x10, 8, "Busy", "", [0x20]⟩]

/-- Claim C7, witness: the soundness theorem applied to the concrete
two-chunk graph request. -/
theorem c7_witness :
    (∀ a ∈ [0x10, 0x20], Reach c7_results (c7_seeds.map (fun r => r.block)) a) ∧
    (∀ e ∈ [((0x10 : Nat), (0x20 : Nat))],
      e.1 ∈ [0x10, 0x20] ∧ e.2 ∈ [0x10, 0x20]) :=
  c7_graph_sound 3 c7_results c7_seeds [0x10, 0x20] [(0x10, 0x20)]
    (by decide) (by decide) (by decide) (by decide)

end HeapAnalyzer
